import Mathlib

/-!
Verification of the SynthVisualizer audio/particle pipeline.

The development shallowly embeds the numeric core of the repository:

* `AudioAnalyzer` (band index mapping, band energies, volume estimate) is
  embedded over `ℚ`: frequency-bin and waveform samples are unsigned 8-bit
  values modelled as `ℕ`, all derived quantities are exact rationals.
* The particle lifecycle and the per-tick frame driver (`Visualizer`,
  `resetParticle` / the aging loop of `animateScene`) are embedded over `ℝ`
  because respawn positions use trigonometric functions.  Randomness is
  modelled as explicit draw parameters in `[0, 1)`, matching `Math.random()`.
-/

namespace SynthViz

/-! ## AudioAnalyzer (src/unnamed/part_000, second revision, lines 154-189) -/

/-- Nyquist frequency: `this.audioContext.sampleRate / 2`. -/
def nyquist (sampleRate : ℚ) : ℚ := sampleRate / 2

/-- One named frequency range of the fixed band table. -/
structure BandRange where
  low : ℚ
  high : ℚ
deriving DecidableEq

/-- The fixed `frequencyBands` table of the analyzer. -/
def frequencyBands : List (String × BandRange) :=
  [("bass", ⟨20, 140⟩), ("lowMid", ⟨140, 400⟩), ("mid", ⟨400, 2600⟩),
   ("highMid", ⟨2600, 5200⟩), ("treble", ⟨5200, 14000⟩)]

/-- `lowIndex = Math.max(0, Math.floor(range.low * frequencyBinCount / nyquist))`
(`getFrequencyBands`, line 163): clamped below at 0 only. -/
def lowIndexOf (sampleRate : ℚ) (binCount : ℕ) (low : ℚ) : ℤ :=
  max 0 ⌊low * binCount / nyquist sampleRate⌋

/-- `highIndex = Math.min(frequencyBinCount - 1, Math.floor(range.high * frequencyBinCount / nyquist))`
(`getFrequencyBands`, line 164): clamped above at `binCount - 1` only. -/
def highIndexOf (sampleRate : ℚ) (binCount : ℕ) (high : ℚ) : ℤ :=
  min ((binCount : ℤ) - 1) ⌊high * binCount / nyquist sampleRate⌋

/-- The spec's words for the low bin index: "floor(lowHz * binCount / nyquist),
clamped to [0, binCount-1]" — clamped at BOTH ends.  Stated from the spec, for
comparison with `lowIndexOf`. -/
def lowIndexSpec (sampleRate : ℚ) (binCount : ℕ) (low : ℚ) : ℤ :=
  min ((binCount : ℤ) - 1) (max 0 ⌊low * binCount / nyquist sampleRate⌋)

/-- The spec's words for the high bin index: "floor(highHz * binCount / nyquist),
clamped to [0, binCount-1]" — clamped at BOTH ends.  Stated from the spec, for
comparison with `highIndexOf`. -/
def highIndexSpec (sampleRate : ℚ) (binCount : ℕ) (high : ℚ) : ℤ :=
  min ((binCount : ℤ) - 1) (max 0 ⌊high * binCount / nyquist sampleRate⌋)

/-- `getAverageFromRange(low, high)` (lines 170-178): returns `0` when
`low > high`, otherwise the mean of the bins in `[low, high]` divided by 255.
The JS array read `this.frequencyData[i]` is modelled by `List.getD _ _ 0`
(the analyzer only calls it with indices inside the bin array). -/
def getAverageFromRange (frequencyData : List ℕ) (low high : ℤ) : ℚ :=
  if low > high then 0
  else
    let sum : ℚ := ∑ i ∈ Finset.Icc low high, (frequencyData.getD i.toNat 0 : ℚ)
    let count : ℤ := high - low + 1
    if 0 < count then sum / (count : ℚ) / 255 else 0

/-- Energy of one band, as `getFrequencyBands` (lines 162-166) computes it:
indices derived from the band's frequency range, then `getAverageFromRange`. -/
def bandEnergy (sampleRate : ℚ) (binCount : ℕ) (frequencyData : List ℕ)
    (rg : BandRange) : ℚ :=
  getAverageFromRange frequencyData (lowIndexOf sampleRate binCount rg.low)
    (highIndexOf sampleRate binCount rg.high)

/-- `getFrequencyBands()` (lines 154-168): every band of the table mapped to
its energy. -/
def getFrequencyBands (sampleRate : ℚ) (binCount : ℕ) (frequencyData : List ℕ) :
    List (String × ℚ) :=
  frequencyBands.map fun nr => (nr.1, bandEnergy sampleRate binCount frequencyData nr.2)

/-- `getAverageVolume()` (lines 185-189): `0` for an empty waveform, otherwise
`(Σ |sample - 128|) / length / 128`. -/
def getAverageVolume (timeDomainData : List ℕ) : ℚ :=
  if timeDomainData.length = 0 then 0
  else ((timeDomainData.map fun (v : ℕ) => |(v : ℚ) - 128|).sum) / timeDomainData.length / 128

/-! ## Visualizer (src/src/scene.js)

The particle lifecycle and the per-tick driver `animateScene` are embedded
over `ℝ` (respawn positions use `sin`/`cos`/`acos`).  Each call to
`Math.random()` is modelled by an explicit draw parameter in `[0, 1)`.
GPU-facing `needsUpdate` dirty flags and the actual render calls are outside
the numeric data flow and are not part of the state; the `changed` boolean
below is the `needsRespawnUpdate` flag of the aging loop. -/

/-- `THREE.MathUtils.lerp(x, y, t) = (1 - t) * x + t * y`. -/
noncomputable def lerp (x y t : ℝ) : ℝ := (1 - t) * x + t * y

/-- The numeric settings of `defineDefaultSettings` that feed the claims'
data flow (the rotation/noise/size settings only drive rendering transforms
and are omitted). -/
structure Settings where
  bloomStrength : ℝ
  bloomRadius : ℝ
  bloomThreshold : ℝ
  audioBloomFactor : ℝ
  particleMinLife : ℝ
  particleMaxLife : ℝ

/-- The nine `Math.random()` draws consumed by one `resetParticle` call, in
source order. -/
structure Rand where
  radius : ℝ
  theta : ℝ
  phi : ℝ
  colR : ℝ
  colG : ℝ
  colB : ℝ
  size : ℝ
  factor : ℝ
  lifeDraw : ℝ

/-- Every draw of a `Rand` lies in `[0, 1)`, as `Math.random()` guarantees. -/
def RandValid (r : Rand) : Prop :=
  (0 ≤ r.radius ∧ r.radius < 1) ∧ (0 ≤ r.theta ∧ r.theta < 1) ∧
  (0 ≤ r.phi ∧ r.phi < 1) ∧ (0 ≤ r.colR ∧ r.colR < 1) ∧
  (0 ≤ r.colG ∧ r.colG < 1) ∧ (0 ≤ r.colB ∧ r.colB < 1) ∧
  (0 ≤ r.size ∧ r.size < 1) ∧ (0 ≤ r.factor ∧ r.factor < 1) ∧
  (0 ≤ r.lifeDraw ∧ r.lifeDraw < 1)

/-- One slot of the particle pool: the per-index entries of the parallel
`positions`/`colors`/`baseSizes`/`randomFactors`/`life`/`maxLife` arrays. -/
structure Particle where
  posX : ℝ
  posY : ℝ
  posZ : ℝ
  colorR : ℝ
  colorG : ℝ
  colorB : ℝ
  baseSize : ℝ
  randomFactor : ℝ
  life : ℝ
  maxLife : ℝ

/-- `Visualizer.resetParticle` (scene.js lines 404-423): redraw every
attribute of one pool slot.  `radius` is drawn in
`[innerRadius, outerRadius) = [2.5, 15)`, the direction from
`theta = rand*2π`, `phi = acos(rand*2 - 1)`; `maxLife` is drawn in the
configured lifespan range and, when the draw is `≤ 0.1`, floored to
`max(0.1, particleMinLife)`; `life` starts at `maxLife`. -/
noncomputable def resetParticle (s : Settings) (r : Rand) : Particle :=
  let particleOuterRadius : ℝ := 15
  let particleInnerRadius : ℝ := 2.5
  let radius := particleInnerRadius + r.radius * (particleOuterRadius - particleInnerRadius)
  let theta := r.theta * (2 * Real.pi)
  let phi := Real.arccos (r.phi * 2 - 1)
  let lifeRange := s.particleMaxLife - s.particleMinLife
  let maxLife0 := s.particleMinLife + r.lifeDraw * lifeRange
  let maxLife := if maxLife0 ≤ 0.1 then max 0.1 s.particleMinLife else maxLife0
  { posX := radius * Real.sin phi * Real.cos theta
    posY := radius * Real.sin phi * Real.sin theta
    posZ := radius * Real.cos phi
    colorR := 0.6 + r.colR * 0.4
    colorG := 0.6 + r.colG * 0.4
    colorB := 0.6 + r.colB * 0.4
    baseSize := 0.5 + r.size * 1.0
    randomFactor := r.factor
    life := maxLife
    maxLife := maxLife }

/-- The aging loop of `animateScene` (scene.js lines 494-500) from pool index
`i` on: `life -= deltaTime`; a slot whose life dropped to `≤ 0` is respawned
via `resetParticle` (with its nine fresh draws, `draws i`) and the
`needsRespawnUpdate` flag (the returned `Bool`) is set. -/
noncomputable def tickFrom (s : Settings) (dt : ℝ) (draws : ℕ → Rand) :
    ℕ → List Particle → List Particle × Bool
  | _, [] => ([], false)
  | i, p :: ps =>
    let rest := tickFrom s dt draws (i + 1) ps
    if p.life - dt ≤ 0 then (resetParticle s (draws i) :: rest.1, true)
    else ({ p with life := p.life - dt } :: rest.1, rest.2)

/-- One tick of the particle engine over the whole pool. -/
noncomputable def tick (s : Settings) (dt : ℝ) (draws : ℕ → Rand)
    (pool : List Particle) : List Particle × Bool :=
  tickFrom s dt draws 0 pool

/-- Any number of successive engine ticks, each with its elapsed time and its
random draws. -/
noncomputable def runTicks (s : Settings) :
    List (ℝ × (ℕ → Rand)) → List Particle → List Particle
  | [], pool => pool
  | step :: rest, pool => runTicks s rest (tick s step.1 step.2 pool).1

/-- The per-frame measurement object produced by `AudioAnalyzer.getAudioData`
as `animateScene` consumes it: the five band energies and the volume. -/
structure AudioData where
  bass : ℝ
  lowMid : ℝ
  mid : ℝ
  highMid : ℝ
  treble : ℝ
  volume : ℝ

/-- The cross-tick smoothed state of `animateScene`: the sphere shader
uniforms (five bands, volume, time) and the particle shader uniforms
(`audioVolume`, `audioMid`, time). -/
structure SmoothState where
  bass : ℝ
  lowMid : ℝ
  mid : ℝ
  highMid : ℝ
  treble : ℝ
  volume : ℝ
  audioVolume : ℝ
  audioMid : ℝ
  sphereTime : ℝ
  particleTime : ℝ

/-- What one `animateScene` tick hands to the rendering collaborators: the
new smoothed state, the new pool, the respawn flag, and the three bloom pass
parameters. -/
structure FrameOut where
  smooth : SmoothState
  pool : List Particle
  changed : Bool
  bloomStrengthOut : ℝ
  bloomRadiusOut : ℝ
  bloomThresholdOut : ℝ
  isAudioActive : Bool

/-- The no-audio particle color fade of `animateScene` (scene.js lines
554-563) from pool index `i` on: each color channel is pulled toward
`0.6 + Math.random() * 0.4` with rate 0.02; `colorDraws i` supplies the three
fresh draws of slot `i`. -/
noncomputable def fadeColors (colorDraws : ℕ → ℝ × ℝ × ℝ) :
    ℕ → List Particle → List Particle
  | _, [] => []
  | i, p :: ps =>
    { p with
      colorR := lerp p.colorR (0.6 + (colorDraws i).1 * 0.4) 0.02
      colorG := lerp p.colorG (0.6 + (colorDraws i).2.1 * 0.4) 0.02
      colorB := lerp p.colorB (0.6 + (colorDraws i).2.2 * 0.4) 0.02 } ::
        fadeColors colorDraws (i + 1) ps

/-- `Visualizer.animateScene(deltaTime, audioData)` (scene.js lines 468-571),
restricted to its numeric data flow: advance the shader clocks, age/respawn
the particle pool, then — depending on whether `audioData` is present — pull
each smoothed channel toward its measurement (rate 0.2 for sphere uniforms,
0.1 for particle uniforms) or decay it toward 0 (rates 0.1 / 0.05), drift the
particle colors (only when no respawn marked the color buffer dirty this
tick), and set the bloom pass: `radius`/`threshold` from the settings and
`strength = bloomStrength + audioData.volume * audioBloomFactor` when audio
is present, `bloomStrength` alone otherwise.  `colorDraws` supplies the
per-particle `Math.random()` triples of the no-audio color fade. -/
noncomputable def animateScene (s : Settings) (st : SmoothState) (pool : List Particle)
    (dt : ℝ) (audioData : Option AudioData) (draws : ℕ → Rand)
    (colorDraws : ℕ → ℝ × ℝ × ℝ) : FrameOut :=
  let sphereTime :=
    st.sphereTime + dt * (1 + (match audioData with | some a => a.volume * 2 | none => 0))
  let particleTime := st.particleTime + dt
  let tp := tick s dt draws pool
  match audioData with
  | some a =>
    let pool2 :=
      if tp.2 then tp.1
      else tp.1.map fun p =>
        { p with
          colorR := lerp p.colorR (0.2 + a.bass * 0.5) 0.1
          colorG := lerp p.colorG (0.2 + a.mid * 0.5) 0.1
          colorB := lerp p.colorB (0.2 + a.treble * 0.5) 0.1 }
    { smooth :=
        { bass := lerp st.bass a.bass 0.2
          lowMid := lerp st.lowMid a.lowMid 0.2
          mid := lerp st.mid a.mid 0.2
          highMid := lerp st.highMid a.highMid 0.2
          treble := lerp st.treble a.treble 0.2
          volume := lerp st.volume a.volume 0.2
          audioVolume := lerp st.audioVolume a.volume 0.1
          audioMid := lerp st.audioMid a.mid 0.1
          sphereTime := sphereTime
          particleTime := particleTime }
      pool := pool2
      changed := tp.2
      bloomStrengthOut := s.bloomStrength + a.volume * s.audioBloomFactor
      bloomRadiusOut := s.bloomRadius
      bloomThresholdOut := s.bloomThreshold
      isAudioActive := true }
  | none =>
    let pool2 :=
      if tp.2 then tp.1
      else fadeColors colorDraws 0 tp.1
    { smooth :=
        { bass := lerp st.bass 0 0.1
          lowMid := lerp st.lowMid 0 0.1
          mid := lerp st.mid 0 0.1
          highMid := lerp st.highMid 0 0.1
          treble := lerp st.treble 0 0.1
          volume := lerp st.volume 0 0.1
          audioVolume := lerp st.audioVolume 0 0.05
          audioMid := lerp st.audioMid 0 0.05
          sphereTime := sphereTime
          particleTime := particleTime }
      pool := pool2
      changed := tp.2
      bloomStrengthOut := s.bloomStrength
      bloomRadiusOut := s.bloomRadius
      bloomThresholdOut := s.bloomThreshold
      isAudioActive := false }

/-- Repeated application of the smoothing update of one channel: the state is
pulled toward the constant measurement `m` with constant rate `alpha`
(scene.js lines 517-527 instantiate this with rate 0.2). -/
noncomputable def smoothIter (alpha m s0 : ℝ) : ℕ → ℝ
  | 0 => s0
  | n + 1 => lerp (smoothIter alpha m s0 n) m alpha

/-! ## Theorems about the audio analyzer -/

lemma getD_le_255 {frequencyData : List ℕ} (hf : ∀ v ∈ frequencyData, v ≤ 255)
    (k : ℕ) : frequencyData.getD k 0 ≤ 255 := by
  by_cases hk : k < frequencyData.length
  · rw [List.getD_eq_getElem _ _ hk]
    exact hf _ (List.getElem_mem hk)
  · rw [List.getD_eq_default _ _ (le_of_not_lt hk)]
    exact Nat.zero_le _

lemma getAverageFromRange_nonneg (frequencyData : List ℕ) (low high : ℤ) :
    0 ≤ getAverageFromRange frequencyData low high := by
  unfold getAverageFromRange
  dsimp only
  split_ifs with h1 h2
  · exact le_refl 0
  · positivity
  · exact le_refl 0

lemma getAverageFromRange_le_one {frequencyData : List ℕ}
    (hf : ∀ v ∈ frequencyData, v ≤ 255) (low high : ℤ) :
    getAverageFromRange frequencyData low high ≤ 1 := by
  unfold getAverageFromRange
  dsimp only
  split_ifs with h1 h2
  · norm_num
  · have hsum : (∑ i ∈ Finset.Icc low high, (frequencyData.getD i.toNat 0 : ℚ))
        ≤ ((high : ℚ) - low + 1) * 255 := by
      calc (∑ i ∈ Finset.Icc low high, (frequencyData.getD i.toNat 0 : ℚ))
          ≤ (Finset.Icc low high).card • (255 : ℚ) := by
            apply Finset.sum_le_card_nsmul
            intro i _
            exact_mod_cast getD_le_255 hf i.toNat
        _ = ((high : ℚ) - low + 1) * 255 := by
            rw [Int.card_Icc, nsmul_eq_mul]
            congr 1
            have h3 : (0 : ℤ) ≤ high + 1 - low := by omega
            rw [show high + 1 - low = high - low + 1 by ring] at h3
            rw [← Int.cast_natCast (R := ℚ), Int.toNat_of_nonneg (by omega : (0:ℤ) ≤ high + 1 - low)]
            push_cast
            ring
    have hc : (0 : ℚ) < (high : ℚ) - low + 1 := by
      have : (0 : ℚ) < ((high - low + 1 : ℤ) : ℚ) := by exact_mod_cast h2
      push_cast at this
      linarith
    rw [div_div, div_le_one (by push_cast; nlinarith)]
    calc (∑ i ∈ Finset.Icc low high, (frequencyData.getD i.toNat 0 : ℚ))
        ≤ ((high : ℚ) - low + 1) * 255 := hsum
      _ = ((high - low + 1 : ℤ) : ℚ) * 255 := by push_cast; ring
  · norm_num

/-- C4 (counterexample): the claim says each bin index is clamped to
`[0, binCount-1]`, but the code clamps `lowIndex` only from below.  With
`sampleRate = 8000` (`nyquist = 4000`), `binCount = 1024` and the treble
band's `lowHz = 5200`, the code computes `lowIndex = 1331`, while the
claimed doubly-clamped formula gives `1023`. -/
theorem lowIndex_not_doubly_clamped :
    lowIndexOf 8000 1024 5200 = 1331 ∧ lowIndexSpec 8000 1024 5200 = 1023 ∧
    lowIndexOf 8000 1024 5200 ≠ lowIndexSpec 8000 1024 5200 := by
  refine ⟨?_, ?_, ?_⟩ <;> norm_num [lowIndexOf, lowIndexSpec, nyquist]

/-- C4 (amended): `lowIndex = max(0, floor(lowHz*binCount/nyquist))` is
clamped from below only and `highIndex = min(binCount-1, floor(...))` from
above only; each agrees with the doubly clamped value of the claim whenever
the raw floor is within range; with `sampleRate = 44100`, `binCount = 1024`,
the band `[20, 140)` maps to `lowIndex = 0`, `highIndex = 6`. -/
theorem bandIndex_mapping :
    (∀ (sampleRate : ℚ) (binCount : ℕ) (low : ℚ), 0 < binCount →
      ⌊low * binCount / nyquist sampleRate⌋ ≤ (binCount : ℤ) - 1 →
      lowIndexOf sampleRate binCount low = lowIndexSpec sampleRate binCount low) ∧
    (∀ (sampleRate : ℚ) (binCount : ℕ) (high : ℚ),
      0 ≤ ⌊high * binCount / nyquist sampleRate⌋ →
      highIndexOf sampleRate binCount high = highIndexSpec sampleRate binCount high) ∧
    lowIndexOf 44100 1024 20 = 0 ∧ highIndexOf 44100 1024 140 = 6 := by
  refine ⟨?_, ?_, ?_, ?_⟩
  · intro sampleRate binCount low hbc hfl
    unfold lowIndexOf lowIndexSpec
    have h1 : (1 : ℤ) ≤ (binCount : ℤ) := by exact_mod_cast hbc
    omega
  · intro sampleRate binCount high hfl
    unfold highIndexOf highIndexSpec
    omega
  · norm_num [lowIndexOf, nyquist]
  · norm_num [highIndexOf, nyquist]

/-- Witness for C4 (amended): the agreement conjuncts applied at the spec's
own concrete configuration `sampleRate = 44100`, `binCount = 1024`. -/
theorem bandIndex_mapping_witness :
    lowIndexOf 44100 1024 20 = lowIndexSpec 44100 1024 20 ∧
    highIndexOf 44100 1024 140 = highIndexSpec 44100 1024 140 :=
  ⟨bandIndex_mapping.1 44100 1024 20 (by norm_num) (by norm_num [nyquist]),
   bandIndex_mapping.2.1 44100 1024 140 (by norm_num [nyquist])⟩

lemma getAverageFromRange_of_gt (frequencyData : List ℕ) {low high : ℤ}
    (h : high < low) : getAverageFromRange frequencyData low high = 0 := by
  unfold getAverageFromRange
  rw [if_pos (by omega)]

/-- C6: a degenerate band is absorbed, not an error: whenever the clamped
indices satisfy `lowIndex > highIndex`, `getAverageFromRange` returns exactly
0; in particular a band whose two frequencies both sit at or above the
Nyquist frequency has energy exactly 0.  (`getAverageFromRange` and
`bandEnergy` are total functions of their inputs.) -/
theorem degenerate_band_energy_zero :
    (∀ (frequencyData : List ℕ) (low high : ℤ), high < low →
      getAverageFromRange frequencyData low high = 0) ∧
    (∀ (sampleRate : ℚ) (binCount : ℕ) (frequencyData : List ℕ) (rg : BandRange),
      0 < sampleRate → 0 < binCount → nyquist sampleRate ≤ rg.low →
      nyquist sampleRate ≤ rg.high → bandEnergy sampleRate binCount frequencyData rg = 0) := by
  constructor
  · intro frequencyData low high h
    exact getAverageFromRange_of_gt frequencyData h
  · intro sampleRate binCount frequencyData rg hsr hbc hlow _
    have hny : (0 : ℚ) < nyquist sampleRate := by
      unfold nyquist; positivity
    have hfloor : (binCount : ℤ) ≤ ⌊rg.low * binCount / nyquist sampleRate⌋ := by
      rw [Int.le_floor]
      rw [le_div_iff₀ hny]
      push_cast
      calc (binCount : ℚ) * nyquist sampleRate ≤ (binCount : ℚ) * rg.low := by
            apply mul_le_mul_of_nonneg_left hlow (by positivity)
        _ = rg.low * binCount := by ring
    unfold bandEnergy
    apply getAverageFromRange_of_gt frequencyData
    unfold lowIndexOf highIndexOf
    have h1 : (1 : ℤ) ≤ (binCount : ℤ) := by exact_mod_cast hbc
    omega

/-- Witness for C6: a reversed band `[30, 20)` hitting indices `3 > 2`, and a
band `[60, 70)` entirely above the Nyquist frequency 50 of an 8 kHz-class
sample rate of 100, both yield energy 0. -/
theorem degenerate_band_energy_zero_witness :
    getAverageFromRange [7, 7, 7, 7] 3 2 = 0 ∧
    bandEnergy 100 4 [1, 2, 3, 4] ⟨60, 70⟩ = 0 :=
  ⟨degenerate_band_energy_zero.1 [7, 7, 7, 7] 3 2 (by norm_num),
   degenerate_band_energy_zero.2 100 4 [1, 2, 3, 4] ⟨60, 70⟩ (by norm_num) (by norm_num)
     (by norm_num [nyquist]) (by norm_num [nyquist])⟩

/-- C8: the volume estimate is the arithmetic mean of `|sample - 128| / 128`
over the waveform samples; an empty waveform yields exactly 0; a waveform of
`n > 0` samples all equal to 255 yields exactly 0.9921875. -/
theorem averageVolume_formula :
    getAverageVolume [] = 0 ∧
    (∀ w : List ℕ, w ≠ [] →
      getAverageVolume w = ((w.map fun (v : ℕ) => |(v : ℚ) - 128| / 128).sum) / w.length) ∧
    (∀ n : ℕ, 0 < n → getAverageVolume (List.replicate n 255) = 0.9921875) := by
  refine ⟨rfl, ?_, ?_⟩
  · intro w hw
    unfold getAverageVolume
    rw [if_neg (by simpa using hw)]
    have hmap : (w.map fun (v : ℕ) => |(v : ℚ) - 128| / 128).sum
        = (w.map fun (v : ℕ) => |(v : ℚ) - 128|).sum / 128 := by
      simp only [div_eq_mul_inv]
      rw [List.sum_map_mul_right]
    rw [hmap, div_div, div_div, mul_comm]
  · intro n hn
    unfold getAverageVolume
    rw [if_neg (by simp; omega)]
    rw [List.map_replicate, List.sum_replicate, List.length_replicate]
    rw [show |((255 : ℕ) : ℚ) - 128| = 127 by norm_num]
    have hn0 : (n : ℚ) ≠ 0 := by exact_mod_cast hn.ne.symm
    rw [nsmul_eq_mul, show (0.9921875 : ℚ) = 127 / 128 by norm_num]
    field_simp

/-- Witness for C8: a one-sample waveform `[255]` evaluated through both
conjuncts with hypotheses. -/
theorem averageVolume_formula_witness :
    getAverageVolume [255] = (([255].map fun (v : ℕ) => |(v : ℚ) - 128| / 128).sum) / [255].length ∧
    getAverageVolume (List.replicate 1 255) = 0.9921875 :=
  ⟨averageVolume_formula.2.1 [255] (by simp),
   averageVolume_formula.2.2 1 (by norm_num)⟩

/-- C9: on frames whose frequency bins and waveform samples are unsigned
8-bit values (each `≤ 255`), every band energy — for every band definition —
and the volume estimate lie in `[0, 1]`. -/
theorem energy_and_volume_in_unit_interval (sampleRate : ℚ) (binCount : ℕ)
    (frequencyData w : List ℕ) (rg : BandRange)
    (hf : ∀ v ∈ frequencyData, v ≤ 255) (hw : ∀ v ∈ w, v ≤ 255) :
    (0 ≤ bandEnergy sampleRate binCount frequencyData rg ∧
      bandEnergy sampleRate binCount frequencyData rg ≤ 1) ∧
    (0 ≤ getAverageVolume w ∧ getAverageVolume w ≤ 1) := by
  refine ⟨⟨getAverageFromRange_nonneg _ _ _, getAverageFromRange_le_one hf _ _⟩, ?_, ?_⟩
  · unfold getAverageVolume
    split_ifs with h
    · exact le_refl 0
    · apply div_nonneg (div_nonneg ?_ (by positivity)) (by norm_num)
      apply List.sum_nonneg
      intro x hx
      simp only [List.mem_map] at hx
      obtain ⟨v, _, rfl⟩ := hx
      exact abs_nonneg _
  · unfold getAverageVolume
    split_ifs with h
    · norm_num
    · have hlen : (0 : ℚ) < w.length := by
        have h2 : 0 < w.length := by omega
        exact_mod_cast h2
      have hsum : (w.map fun (v : ℕ) => |(v : ℚ) - 128|).sum
          ≤ (w.map fun (v : ℕ) => |(v : ℚ) - 128|).length • (128 : ℚ) := by
        apply List.sum_le_card_nsmul
        intro x hx
        simp only [List.mem_map] at hx
        obtain ⟨v, hv, rfl⟩ := hx
        have hv255 : (v : ℚ) ≤ 255 := by exact_mod_cast hw v hv
        have hv0 : (0 : ℚ) ≤ v := by positivity
        rw [abs_le]
        constructor <;> linarith
      rw [List.length_map, nsmul_eq_mul] at hsum
      rw [div_div, div_le_one (by nlinarith)]
      linarith

/-- Witness for C9: a two-bin frame `[0, 255]` and the waveform `[128]`,
with the 8-bit hypotheses discharged. -/
theorem energy_and_volume_in_unit_interval_witness :
    (0 ≤ bandEnergy 44100 1024 [0, 255] ⟨20, 140⟩ ∧
      bandEnergy 44100 1024 [0, 255] ⟨20, 140⟩ ≤ 1) ∧
    (0 ≤ getAverageVolume [128] ∧ getAverageVolume [128] ≤ 1) :=
  energy_and_volume_in_unit_interval 44100 1024 [0, 255] [128] ⟨20, 140⟩
    (by intro v hv; simp at hv; rcases hv with h | h <;> omega)
    (by intro v hv; simp at hv; omega)

/-! ## Theorems about the particle lifecycle -/

lemma resetParticle_maxLife_pos (s : Settings) (r : Rand) :
    0 < (resetParticle s r).maxLife := by
  unfold resetParticle
  dsimp only
  split_ifs with h
  · have h1 : (0.1 : ℝ) ≤ max 0.1 s.particleMinLife := le_max_left _ _
    linarith
  · push_neg at h
    linarith

lemma resetParticle_life_eq_maxLife (s : Settings) (r : Rand) :
    (resetParticle s r).life = (resetParticle s r).maxLife := by
  unfold resetParticle
  dsimp only

/-- C7: on every respawn the new `maxLife` is the draw
`minLifespan + rand * (maxLifespan - minLifespan)` floored (when `≤ 0.1`) to
the strictly positive value `max(0.1, minLifespan)`: it is strictly positive
for EVERY configuration (misconfigured ranges included), the particle's
`life` restarts at it (so the particle ages again and, for any positive tick
size, expires after finitely many ticks), and for a sane configuration
(`minLifespan ≤ maxLifespan`, `maxLifespan ≥ 0.1`) it stays inside
`[minLifespan, maxLifespan]`. -/
theorem respawn_maxLife_positive (s : Settings) (r : Rand)
    (h0 : 0 ≤ r.lifeDraw) (h1 : r.lifeDraw < 1) :
    0 < (resetParticle s r).maxLife ∧
    (resetParticle s r).life = (resetParticle s r).maxLife ∧
    (∀ dt : ℝ, 0 < dt → ∃ n : ℕ, (resetParticle s r).maxLife - n * dt ≤ 0) ∧
    (s.particleMinLife ≤ s.particleMaxLife → 0.1 ≤ s.particleMaxLife →
      s.particleMinLife ≤ (resetParticle s r).maxLife ∧
      (resetParticle s r).maxLife ≤ s.particleMaxLife) := by
  refine ⟨resetParticle_maxLife_pos s r, resetParticle_life_eq_maxLife s r, ?_, ?_⟩
  · intro dt hdt
    obtain ⟨n, hn⟩ := exists_nat_ge ((resetParticle s r).maxLife / dt)
    refine ⟨n, ?_⟩
    have h2 : (resetParticle s r).maxLife ≤ n * dt := by
      rw [div_le_iff₀ hdt] at hn
      linarith
    linarith
  · intro hminmax hmax
    unfold resetParticle
    dsimp only
    have hrange : 0 ≤ s.particleMaxLife - s.particleMinLife := by linarith
    split_ifs with h
    · constructor
      · exact le_max_right _ _
      · exact max_le hmax hminmax
    · constructor
      · nlinarith
      · nlinarith

/-- Witness for C7: a sane configuration (lifespan range `[2, 5]`) and the
mid draw 1/2. -/
theorem respawn_maxLife_positive_witness :
    0 < (resetParticle ⟨0, 0, 0, 0, 2, 5⟩
        ⟨1/2, 1/2, 1/2, 1/2, 1/2, 1/2, 1/2, 1/2, 1/2⟩).maxLife ∧
    (resetParticle ⟨0, 0, 0, 0, 2, 5⟩
        ⟨1/2, 1/2, 1/2, 1/2, 1/2, 1/2, 1/2, 1/2, 1/2⟩).life
      = (resetParticle ⟨0, 0, 0, 0, 2, 5⟩
        ⟨1/2, 1/2, 1/2, 1/2, 1/2, 1/2, 1/2, 1/2, 1/2⟩).maxLife ∧
    (∀ dt : ℝ, 0 < dt → ∃ n : ℕ, (resetParticle ⟨0, 0, 0, 0, 2, 5⟩
        ⟨1/2, 1/2, 1/2, 1/2, 1/2, 1/2, 1/2, 1/2, 1/2⟩).maxLife - n * dt ≤ 0) ∧
    ((2 : ℝ) ≤ 5 → (0.1 : ℝ) ≤ 5 →
      (2 : ℝ) ≤ (resetParticle ⟨0, 0, 0, 0, 2, 5⟩
        ⟨1/2, 1/2, 1/2, 1/2, 1/2, 1/2, 1/2, 1/2, 1/2⟩).maxLife ∧
      (resetParticle ⟨0, 0, 0, 0, 2, 5⟩
        ⟨1/2, 1/2, 1/2, 1/2, 1/2, 1/2, 1/2, 1/2, 1/2⟩).maxLife ≤ 5) :=
  respawn_maxLife_positive ⟨0, 0, 0, 0, 2, 5⟩
    ⟨1/2, 1/2, 1/2, 1/2, 1/2, 1/2, 1/2, 1/2, 1/2⟩ (by norm_num) (by norm_num)

/-- C10: every position produced by `resetParticle` (used both at pool
initialization and at respawn) lies on the spherical shell of radius
`2.5 + rand * (15 - 2.5)` around the origin, and that radius lies in
`[2.5, 15)`. -/
theorem respawn_position_on_shell (s : Settings) (r : Rand)
    (h0 : 0 ≤ r.radius) (h1 : r.radius < 1) :
    Real.sqrt ((resetParticle s r).posX ^ 2 + (resetParticle s r).posY ^ 2 +
        (resetParticle s r).posZ ^ 2) = 2.5 + r.radius * (15 - 2.5) ∧
    2.5 ≤ 2.5 + r.radius * (15 - 2.5) ∧ 2.5 + r.radius * (15 - 2.5) < 15 := by
  set R : ℝ := 2.5 + r.radius * (15 - 2.5) with hR
  have hRpos : 0 < R := by rw [hR]; nlinarith
  refine ⟨?_, by rw [hR] at hRpos ⊢; nlinarith, by rw [hR]; nlinarith⟩
  set theta : ℝ := r.theta * (2 * Real.pi)
  set phi : ℝ := Real.arccos (r.phi * 2 - 1)
  have hx : (resetParticle s r).posX = R * Real.sin phi * Real.cos theta := by
    unfold resetParticle; dsimp only
  have hy : (resetParticle s r).posY = R * Real.sin phi * Real.sin theta := by
    unfold resetParticle; dsimp only
  have hz : (resetParticle s r).posZ = R * Real.cos phi := by
    unfold resetParticle; dsimp only
  rw [hx, hy, hz]
  have hsq : (R * Real.sin phi * Real.cos theta) ^ 2 + (R * Real.sin phi * Real.sin theta) ^ 2 +
      (R * Real.cos phi) ^ 2 = R ^ 2 := by
    have ht : Real.cos theta ^ 2 + Real.sin theta ^ 2 = 1 := Real.cos_sq_add_sin_sq theta
    have hp : Real.sin phi ^ 2 + Real.cos phi ^ 2 = 1 := Real.sin_sq_add_cos_sq phi
    calc (R * Real.sin phi * Real.cos theta) ^ 2 + (R * Real.sin phi * Real.sin theta) ^ 2 +
          (R * Real.cos phi) ^ 2
        = R ^ 2 * (Real.sin phi ^ 2 * (Real.cos theta ^ 2 + Real.sin theta ^ 2) +
            Real.cos phi ^ 2) := by ring
      _ = R ^ 2 * (Real.sin phi ^ 2 + Real.cos phi ^ 2) := by rw [ht]; ring
      _ = R ^ 2 := by rw [hp]; ring
  rw [hsq]
  exact Real.sqrt_sq hRpos.le

/-- Witness for C10: the all-1/2 draw; the spawn radius is `2.5 + 6.25`. -/
theorem respawn_position_on_shell_witness :
    Real.sqrt ((resetParticle ⟨0, 0, 0, 0, 2, 5⟩
        ⟨1/2, 1/2, 1/2, 1/2, 1/2, 1/2, 1/2, 1/2, 1/2⟩).posX ^ 2 +
      (resetParticle ⟨0, 0, 0, 0, 2, 5⟩
        ⟨1/2, 1/2, 1/2, 1/2, 1/2, 1/2, 1/2, 1/2, 1/2⟩).posY ^ 2 +
      (resetParticle ⟨0, 0, 0, 0, 2, 5⟩
        ⟨1/2, 1/2, 1/2, 1/2, 1/2, 1/2, 1/2, 1/2, 1/2⟩).posZ ^ 2)
      = 2.5 + (1/2) * (15 - 2.5) ∧
    (2.5 : ℝ) ≤ 2.5 + (1/2) * (15 - 2.5) ∧ (2.5 : ℝ) + (1/2) * (15 - 2.5) < 15 :=
  respawn_position_on_shell ⟨0, 0, 0, 0, 2, 5⟩
    ⟨1/2, 1/2, 1/2, 1/2, 1/2, 1/2, 1/2, 1/2, 1/2⟩ (by norm_num) (by norm_num)

lemma tickFrom_snd_iff (s : Settings) (dt : ℝ) (draws : ℕ → Rand) :
    ∀ (pool : List Particle) (i : ℕ),
      ((tickFrom s dt draws i pool).2 = true ↔ ∃ p ∈ pool, p.life - dt ≤ 0) := by
  intro pool
  induction pool with
  | nil => intro i; simp [tickFrom]
  | cons p ps ih =>
    intro i
    simp only [tickFrom]
    split_ifs with h
    · simp only [List.mem_cons]
      exact iff_of_true trivial ⟨p, Or.inl rfl, h⟩
    · rw [ih (i + 1)]
      constructor
      · rintro ⟨q, hq, hql⟩
        exact ⟨q, List.mem_cons_of_mem _ hq, hql⟩
      · rintro ⟨q, hq, hql⟩
        rcases List.mem_cons.mp hq with rfl | hq2
        · exact absurd hql h
        · exact ⟨q, hq2, hql⟩

lemma tickFrom_fst_length (s : Settings) (dt : ℝ) (draws : ℕ → Rand) :
    ∀ (pool : List Particle) (i : ℕ),
      (tickFrom s dt draws i pool).1.length = pool.length := by
  intro pool
  induction pool with
  | nil => intro i; simp [tickFrom]
  | cons p ps ih =>
    intro i
    simp only [tickFrom]
    split_ifs with h <;> simp [ih (i + 1)]

lemma tickFrom_fst_of_no_respawn (s : Settings) (dt : ℝ) (draws : ℕ → Rand) :
    ∀ (pool : List Particle) (i : ℕ), (tickFrom s dt draws i pool).2 = false →
      (tickFrom s dt draws i pool).1 = pool.map fun p => { p with life := p.life - dt } := by
  intro pool
  induction pool with
  | nil => intro i _; simp [tickFrom]
  | cons p ps ih =>
    intro i hfalse
    simp only [tickFrom] at hfalse ⊢
    split_ifs at hfalse ⊢ with h
    rw [List.map_cons]
    exact congrArg (List.cons _) (ih (i + 1) hfalse)

lemma tickFrom_invariant (s : Settings) {dt : ℝ} (draws : ℕ → Rand) (hdt : 0 ≤ dt) :
    ∀ (pool : List Particle) (i : ℕ), (∀ p ∈ pool, p.life ≤ p.maxLife) →
      ∀ q ∈ (tickFrom s dt draws i pool).1, 0 < q.life ∧ q.life ≤ q.maxLife := by
  intro pool
  induction pool with
  | nil => intro i _ q hq; simp [tickFrom] at hq
  | cons p ps ih =>
    intro i hpool q hq
    simp only [tickFrom] at hq
    split_ifs at hq with h
    · rcases List.mem_cons.mp hq with rfl | hq2
      · refine ⟨?_, le_of_eq (resetParticle_life_eq_maxLife s (draws i))⟩
        rw [resetParticle_life_eq_maxLife]
        exact resetParticle_maxLife_pos s (draws i)
      · exact ih (i + 1) (fun x hx => hpool x (List.mem_cons_of_mem _ hx)) q hq2
    · rcases List.mem_cons.mp hq with rfl | hq2
      · push_neg at h
        refine ⟨h, ?_⟩
        have hple : p.life ≤ p.maxLife := hpool p (List.mem_cons_self _ _)
        simp only
        linarith
      · exact ih (i + 1) (fun x hx => hpool x (List.mem_cons_of_mem _ hx)) q hq2

/-- C5: the `needsRespawnUpdate` boolean of one engine tick is `true` exactly
when at least one particle's decremented life reached `≤ 0` (i.e. it
respawned this tick); moreover when it is `false` the new pool is the old
pool with every life decremented by `dt` and all other attributes untouched
(so a consumer may skip re-uploading attribute buffers). -/
theorem tick_changed_iff_respawn (s : Settings) (dt : ℝ) (draws : ℕ → Rand)
    (pool : List Particle) :
    ((tick s dt draws pool).2 = true ↔ ∃ p ∈ pool, p.life - dt ≤ 0) ∧
    ((tick s dt draws pool).2 = false →
      (tick s dt draws pool).1 = pool.map fun p => { p with life := p.life - dt }) :=
  ⟨tickFrom_snd_iff s dt draws pool 0, tickFrom_fst_of_no_respawn s dt draws pool 0⟩

/-- Witness for C5: a particle with 1 second of life and a 2-second tick
respawns (`changed = true`); a particle with 5 seconds of life and a 1-second
tick does not, and the pool is then only decremented. -/
theorem tick_changed_iff_respawn_witness :
    (tick ⟨0, 0, 0, 0, 2, 5⟩ 2 (fun _ => ⟨0, 0, 0, 0, 0, 0, 0, 0, 0⟩)
      [⟨0, 0, 0, 0, 0, 0, 0, 0, 1, 1⟩]).2 = true ∧
    (tick ⟨0, 0, 0, 0, 2, 5⟩ 1 (fun _ => ⟨0, 0, 0, 0, 0, 0, 0, 0, 0⟩)
        [⟨0, 0, 0, 0, 0, 0, 0, 0, 5, 5⟩]).1
      = ([⟨0, 0, 0, 0, 0, 0, 0, 0, 5, 5⟩] : List Particle).map
          (fun p => { p with life := p.life - 1 }) := by
  constructor
  · have hiff := (tick_changed_iff_respawn ⟨0, 0, 0, 0, 2, 5⟩ 2
      (fun _ => ⟨0, 0, 0, 0, 0, 0, 0, 0, 0⟩) [⟨0, 0, 0, 0, 0, 0, 0, 0, 1, 1⟩]).1
    exact hiff.mpr ⟨⟨0, 0, 0, 0, 0, 0, 0, 0, 1, 1⟩, List.mem_singleton_self _,
      by show (1 : ℝ) - 2 ≤ 0; norm_num⟩
  · refine (tick_changed_iff_respawn ⟨0, 0, 0, 0, 2, 5⟩ 1 (fun _ => ⟨0, 0, 0, 0, 0, 0, 0, 0, 0⟩)
      [⟨0, 0, 0, 0, 0, 0, 0, 0, 5, 5⟩]).2 ?_
    show (tickFrom _ _ _ 0 _).2 = false
    simp only [tickFrom]
    rw [if_neg (by show ¬((5 : ℝ) - 1 ≤ 0); norm_num)]

/-- C2: starting from any pool satisfying the particle invariant
`0 < life ≤ maxLife`, after ANY sequence of engine ticks (each with a
nonnegative elapsed time and arbitrary random draws) every particle still
satisfies `0 < life ≤ maxLife` — in particular a particle whose life reached
exactly 0 during a tick was respawned within that same tick, since its post-
tick life is strictly positive and equal to a fresh positive `maxLife` — and
the pool size is unchanged; moreover every freshly reset particle satisfies
the invariant, so the invariant also holds for the initial pool built by
`createParticles`. -/
theorem particle_pool_invariant (s : Settings) (pool : List Particle)
    (steps : List (ℝ × (ℕ → Rand)))
    (hpool : ∀ p ∈ pool, 0 < p.life ∧ p.life ≤ p.maxLife)
    (hdt : ∀ st ∈ steps, 0 ≤ st.1) :
    (∀ p ∈ runTicks s steps pool, 0 < p.life ∧ p.life ≤ p.maxLife) ∧
    (runTicks s steps pool).length = pool.length ∧
    (∀ r : Rand, 0 < (resetParticle s r).life ∧
      (resetParticle s r).life ≤ (resetParticle s r).maxLife) := by
  refine ⟨?_, ?_, ?_⟩
  · induction steps generalizing pool with
    | nil => exact hpool
    | cons st rest ih =>
      simp only [runTicks]
      refine ih _ ?_ (fun x hx => hdt x (List.mem_cons_of_mem _ hx))
      exact tickFrom_invariant s st.2 (hdt st (List.mem_cons_self _ _)) pool 0
        (fun p hp => (hpool p hp).2)
  · induction steps generalizing pool with
    | nil => rfl
    | cons st rest ih =>
      simp only [runTicks]
      rw [ih ((tick s st.1 st.2 pool).1) ?_ (fun x hx => hdt x (List.mem_cons_of_mem _ hx))]
      · exact tickFrom_fst_length s st.1 st.2 pool 0
      · exact tickFrom_invariant s st.2 (hdt st (List.mem_cons_self _ _)) pool 0
          (fun p hp => (hpool p hp).2)
  · intro r
    refine ⟨?_, le_of_eq (resetParticle_life_eq_maxLife s r)⟩
    rw [resetParticle_life_eq_maxLife]
    exact resetParticle_maxLife_pos s r

/-- Witness for C2: a one-particle pool with `life = maxLife = 5` run through
two ticks of 1 and 7 seconds (the second forces a respawn). -/
theorem particle_pool_invariant_witness :
    (∀ p ∈ runTicks ⟨0, 0, 0, 0, 2, 5⟩
        [(1, fun _ => ⟨0, 0, 0, 0, 0, 0, 0, 0, 0⟩), (7, fun _ => ⟨0, 0, 0, 0, 0, 0, 0, 0, 0⟩)]
        [⟨0, 0, 0, 0, 0, 0, 0, 0, 5, 5⟩], 0 < p.life ∧ p.life ≤ p.maxLife) ∧
    (runTicks ⟨0, 0, 0, 0, 2, 5⟩
        [(1, fun _ => ⟨0, 0, 0, 0, 0, 0, 0, 0, 0⟩), (7, fun _ => ⟨0, 0, 0, 0, 0, 0, 0, 0, 0⟩)]
        [⟨0, 0, 0, 0, 0, 0, 0, 0, 5, 5⟩]).length
      = ([⟨0, 0, 0, 0, 0, 0, 0, 0, 5, 5⟩] : List Particle).length ∧
    (∀ r : Rand, 0 < (resetParticle ⟨0, 0, 0, 0, 2, 5⟩ r).life ∧
      (resetParticle ⟨0, 0, 0, 0, 2, 5⟩ r).life ≤ (resetParticle ⟨0, 0, 0, 0, 2, 5⟩ r).maxLife) :=
  particle_pool_invariant ⟨0, 0, 0, 0, 2, 5⟩ [⟨0, 0, 0, 0, 0, 0, 0, 0, 5, 5⟩]
    [(1, fun _ => ⟨0, 0, 0, 0, 0, 0, 0, 0, 0⟩), (7, fun _ => ⟨0, 0, 0, 0, 0, 0, 0, 0, 0⟩)]
    (by
      intro p hp
      rw [List.mem_singleton] at hp
      subst hp
      show (0 : ℝ) < 5 ∧ (5 : ℝ) ≤ 5
      norm_num)
    (by
      intro st hst
      rcases List.mem_cons.mp hst with rfl | hst2
      · show (0 : ℝ) ≤ 1; norm_num
      · rw [List.mem_singleton] at hst2
        subst hst2
        show (0 : ℝ) ≤ 7; norm_num)

/-! ## Theorems about the frame driver -/

/-- C1 (counterexample): the claim says the emitted bloom strength is
`bloomStrength + smoothedVolume * audioBloomFactor` with `smoothedVolume` the
smoother's persisted volume channel.  Take `bloomStrength = 0`,
`audioBloomFactor = 1`, the persisted volume channel at 0, and a frame with
raw measured volume 1: the code emits `0 + 1 * 1 = 1`, while the persisted
smoothed channel is `lerp 0 1 0.2 = 0.2` after the tick (0 before it) — the
claimed formula gives `0.2` (or `0`), not `1`. -/
theorem bloom_boost_claim_counterexample :
    (animateScene ⟨0, 0, 0, 1, 2, 5⟩ ⟨0, 0, 0, 0, 0, 0, 0, 0, 0, 0⟩ [] 0
        (some ⟨0, 0, 0, 0, 0, 1⟩) (fun _ => ⟨0, 0, 0, 0, 0, 0, 0, 0, 0⟩)
        (fun _ => (0, 0, 0))).bloomStrengthOut
      ≠ (0 : ℝ) +
        (animateScene ⟨0, 0, 0, 1, 2, 5⟩ ⟨0, 0, 0, 0, 0, 0, 0, 0, 0, 0⟩ [] 0
          (some ⟨0, 0, 0, 0, 0, 1⟩) (fun _ => ⟨0, 0, 0, 0, 0, 0, 0, 0, 0⟩)
          (fun _ => (0, 0, 0))).smooth.volume * 1 ∧
    (animateScene ⟨0, 0, 0, 1, 2, 5⟩ ⟨0, 0, 0, 0, 0, 0, 0, 0, 0, 0⟩ [] 0
        (some ⟨0, 0, 0, 0, 0, 1⟩) (fun _ => ⟨0, 0, 0, 0, 0, 0, 0, 0, 0⟩)
        (fun _ => (0, 0, 0))).bloomStrengthOut
      ≠ (0 : ℝ) + (0 : ℝ) * 1 := by
  constructor <;>
    · simp only [animateScene, tick, tickFrom, lerp]
      norm_num

/-- C1 (amended): for every tick in which audio data is present the emitted
bloom strength is `bloomStrength + rawVolume * audioBloomFactor`, where
`rawVolume` is the RAW per-frame volume measurement of that tick (the
smoothed channel is updated to `lerp(previous, rawVolume, 0.2)` but is not
what feeds the boost); when audio data is absent the emitted strength is
`bloomStrength` alone. -/
theorem bloom_boost_formula (s : Settings) (st : SmoothState) (pool : List Particle)
    (dt : ℝ) (a : AudioData) (draws : ℕ → Rand) (colorDraws : ℕ → ℝ × ℝ × ℝ) :
    (animateScene s st pool dt (some a) draws colorDraws).bloomStrengthOut
      = s.bloomStrength + a.volume * s.audioBloomFactor ∧
    (animateScene s st pool dt none draws colorDraws).bloomStrengthOut = s.bloomStrength ∧
    (animateScene s st pool dt (some a) draws colorDraws).smooth.volume
      = lerp st.volume a.volume 0.2 := by
  refine ⟨?_, ?_, ?_⟩ <;> simp [animateScene]

/-! ## Theorems about the smoothing recurrence -/

lemma smoothIter_sub_succ (alpha m s0 : ℝ) (n : ℕ) :
    smoothIter alpha m s0 (n + 1) - m = (1 - alpha) * (smoothIter alpha m s0 n - m) := by
  simp only [smoothIter, lerp]
  ring

lemma abs_smoothIter_sub (alpha m s0 : ℝ) (h : alpha ≤ 1) (n : ℕ) :
    |smoothIter alpha m s0 n - m| = (1 - alpha) ^ n * |s0 - m| := by
  induction n with
  | zero => simp [smoothIter]
  | succ n ih =>
    rw [smoothIter_sub_succ, abs_mul, abs_of_nonneg (by linarith : (0 : ℝ) ≤ 1 - alpha), ih]
    ring

/-- C3: for one smoothing channel with constant measurement `m ∈ [0,1]` and
constant rate `alpha ∈ (0,1)`, iterating `state ↦ lerp(state, m, alpha)` from
any `s0 ∈ [0,1]`: the distance to `m` never increases, strictly decreases
while nonzero, and is within `eps` of `m` after
`⌈ln(eps) / ln(1 - alpha)⌉` iterations for any `0 < eps <` initial
distance (the initial distance being at most 1). -/
theorem smoothing_convergence (alpha m s0 : ℝ)
    (ha0 : 0 < alpha) (ha1 : alpha < 1) (hm0 : 0 ≤ m) (hm1 : m ≤ 1)
    (hs0 : 0 ≤ s0) (hs1 : s0 ≤ 1) :
    (∀ n : ℕ, |smoothIter alpha m s0 (n + 1) - m| ≤ |smoothIter alpha m s0 n - m|) ∧
    (∀ n : ℕ, smoothIter alpha m s0 n ≠ m →
      |smoothIter alpha m s0 (n + 1) - m| < |smoothIter alpha m s0 n - m|) ∧
    (∀ eps : ℝ, 0 < eps → eps < |s0 - m| →
      |smoothIter alpha m s0 (⌈Real.log eps / Real.log (1 - alpha)⌉.toNat) - m| ≤ eps) := by
  have h1a : (0 : ℝ) < 1 - alpha := by linarith
  have h1b : (1 : ℝ) - alpha < 1 := by linarith
  refine ⟨?_, ?_, ?_⟩
  · intro n
    rw [smoothIter_sub_succ, abs_mul, abs_of_nonneg h1a.le]
    have habs := abs_nonneg (smoothIter alpha m s0 n - m)
    nlinarith
  · intro n hne
    rw [smoothIter_sub_succ, abs_mul, abs_of_nonneg h1a.le]
    have hpos : 0 < |smoothIter alpha m s0 n - m| := abs_pos.mpr (sub_ne_zero.mpr hne)
    nlinarith
  · intro eps heps hlt
    have hd1 : |s0 - m| ≤ 1 := by
      rw [abs_le]
      constructor <;> linarith
    have heps1 : eps < 1 := lt_of_lt_of_le hlt hd1
    have hL : Real.log (1 - alpha) < 0 := Real.log_neg h1a h1b
    have hleps : Real.log eps < 0 := Real.log_neg heps heps1
    set q := Real.log eps / Real.log (1 - alpha) with hq
    have hqpos : 0 < q := div_pos_of_neg_of_neg hleps hL
    set N := (⌈q⌉).toNat with hN
    have hNq : q ≤ (N : ℝ) := by
      have h2 : ((⌈q⌉.toNat : ℕ) : ℝ) = ((⌈q⌉ : ℤ) : ℝ) := by
        exact_mod_cast Int.toNat_of_nonneg (Int.ceil_nonneg hqpos.le)
      rw [hN, h2]
      exact Int.le_ceil q
    have hNL : (N : ℝ) * Real.log (1 - alpha) ≤ Real.log eps := by
      have h3 := mul_le_mul_of_nonpos_right hNq hL.le
      rw [hq, div_mul_cancel₀ _ (ne_of_lt hL)] at h3
      exact h3
    have hpow : (1 - alpha) ^ N ≤ eps := by
      have h4 : (1 - alpha : ℝ) = Real.exp (Real.log (1 - alpha)) := (Real.exp_log h1a).symm
      calc (1 - alpha) ^ N = Real.exp (Real.log (1 - alpha)) ^ N := by rw [← h4]
        _ = Real.exp ((N : ℝ) * Real.log (1 - alpha)) := by rw [← Real.exp_nat_mul]
        _ ≤ Real.exp (Real.log eps) := Real.exp_le_exp.mpr hNL
        _ = eps := Real.exp_log heps
    rw [abs_smoothIter_sub alpha m s0 ha1.le N]
    calc (1 - alpha) ^ N * |s0 - m| ≤ (1 - alpha) ^ N * 1 :=
          mul_le_mul_of_nonneg_left hd1 (by positivity)
      _ = (1 - alpha) ^ N := mul_one _
      _ ≤ eps := hpow

/-- Witness for C3: rate 1/2, measurement 0, start 1, tolerance 1/4. -/
theorem smoothing_convergence_witness :
    |smoothIter (1/2) 0 1 (0 + 1) - 0| ≤ |smoothIter (1/2) 0 1 0 - 0| ∧
    |smoothIter (1/2) 0 1 (⌈Real.log (1/4) / Real.log (1 - 1/2)⌉.toNat) - 0| ≤ 1/4 := by
  have h := smoothing_convergence (1/2) 0 1 (by norm_num) (by norm_num) (by norm_num)
    (by norm_num) (by norm_num) (by norm_num)
  exact ⟨h.1 0, h.2.2 (1/4) (by norm_num) (by rw [sub_zero, abs_one]; norm_num)⟩

end SynthViz

